import Mathlib

/-!
Shallow embedding of the word-count map/sort/reduce pipeline from
`src/mapreduce.go`, together with proofs of the specified properties.

The pipeline stages communicate over FIFO channels, one goroutine per
stage; an uncancelled run is therefore the sequential composition of the
per-stage list transformations modelled below.  Records are `(word, count)`
pairs; words are compared with Go's byte-lexicographic string order, which
on valid UTF-8 agrees with the codepoint-lexicographic order that Lean's
`String` linear order provides.
-/

/-- One record flowing through the pipeline; Go struct `wordCount`
(`word string`, `count int`). -/
structure wordCount where
  word : String
  count : Int
deriving DecidableEq, Repr

/-- Zero value of the Go struct `wordCount` (`var wc wordCount`). -/
def dfltWC : wordCount := ⟨"", 0⟩

/-- Go `wordCountHeap.Swap i j` (mapreduce.go lines 431-433): exchange the
slice entries at positions `i` and `j`. -/
def listSwap (l : List wordCount) (i j : Nat) : List wordCount :=
  (l.set i (l.getD j dfltWC)).set j (l.getD i dfltWC)

/-- Go `unicode.IsSpace`: the characters `strings.Fields` splits on. -/
def goIsSpace (c : Char) : Bool :=
  decide (c.toNat = 0x09 ∨ c.toNat = 0x0a ∨ c.toNat = 0x0b ∨ c.toNat = 0x0c ∨
    c.toNat = 0x0d ∨ c.toNat = 0x20 ∨ c.toNat = 0x85 ∨ c.toNat = 0xa0 ∨
    c.toNat = 0x1680 ∨ (0x2000 ≤ c.toNat ∧ c.toNat ≤ 0x200a) ∨ c.toNat = 0x2028 ∨
    c.toNat = 0x2029 ∨ c.toNat = 0x202f ∨ c.toNat = 0x205f ∨ c.toNat = 0x3000)

/-- Go `strings.Fields line`: maximal runs of non-whitespace characters. -/
def goFields (line : String) : List String :=
  ((line.data.splitOnP goIsSpace).filter (fun w => !w.isEmpty)).map String.mk

/-- Membership test of the character class `[a-zA-Z]` used by the regexp
`nonAlpha = [^a-zA-Z]+` in mapreduce.go. -/
def isASCIIAlpha (c : Char) : Bool :=
  decide (('a' ≤ c ∧ c ≤ 'z') ∨ ('A' ≤ c ∧ c ≤ 'Z'))

/-- Go `nonAlpha.ReplaceAllString w ""`: delete every character that is not
an ASCII letter. -/
def stripNonAlpha (s : String) : String :=
  ⟨s.data.filter isASCIIAlpha⟩

/-- Lowercase one character; after `stripNonAlpha` only ASCII letters
remain, so the ASCII fragment of Go `strings.ToLower` is the relevant one. -/
def goToLowerChar (c : Char) : Char :=
  if 'A' ≤ c ∧ c ≤ 'Z' then Char.ofNat (c.toNat + 32) else c

/-- Go `strings.ToLower`, restricted as above. -/
def goToLower (s : String) : String :=
  ⟨s.data.map goToLowerChar⟩

/-- Go `mapFn` (mapreduce.go lines 20-30): split the line into fields,
normalize each field, and append a `(word, 1)` record for every field whose
normalization is non-empty. -/
def mapFn (line : String) : List wordCount :=
  (goFields line).foldl
    (fun result w =>
      let w2 := goToLower (stripNonAlpha w)
      if w2 ≠ "" then result ++ [{ word := w2, count := 1 }] else result)
    []

/-- Go `mapper` (mapreduce.go lines 33-52): one `mapFn` record stream per
input line, concatenated in input order over the FIFO channel. -/
def mapper (lines : List String) : List wordCount :=
  (lines.map mapFn).flatten

/-- Go `container/heap` sift-up (`up` in heap.go), specialized to
`wordCountHeap` whose `Less i j` is `words[i].word < words[j].word` and
whose `Swap` exchanges two slice entries.  The loop ends when `j` reaches
the root or the parent is not larger. -/
def up (l : List wordCount) (j : Nat) : List wordCount :=
  if h : j = 0 then l
  else if (l.getD j dfltWC).word < (l.getD ((j - 1) / 2) dfltWC).word then
    up (listSwap l ((j - 1) / 2) j) ((j - 1) / 2)
  else l
termination_by j
decreasing_by
  exact Nat.lt_of_le_of_lt (Nat.div_le_self _ 2) (Nat.pred_lt h)

/-- Go `container/heap` sift-down (`down` in heap.go) specialized to
`wordCountHeap`; the choice of the smaller child (`j` in the Go source) is
inlined into the two middle branches. -/
def down (l : List wordCount) (i n : Nat) : List wordCount :=
  if 2 * i + 1 < n then
    if 2 * i + 2 < n ∧ (l.getD (2 * i + 2) dfltWC).word < (l.getD (2 * i + 1) dfltWC).word then
      if (l.getD (2 * i + 2) dfltWC).word < (l.getD i dfltWC).word then
        down (listSwap l i (2 * i + 2)) (2 * i + 2) n
      else l
    else
      if (l.getD (2 * i + 1) dfltWC).word < (l.getD i dfltWC).word then
        down (listSwap l i (2 * i + 1)) (2 * i + 1) n
      else l
  else l
termination_by n - i
decreasing_by
  · omega
  · omega

/-- Go `heap.Push wcHeap wc`: `wordCountHeap.Push` appends, then the library
sifts the new last element up. -/
def heapPush (l : List wordCount) (x : wordCount) : List wordCount :=
  up (l ++ [x]) l.length

/-- Go `heap.Pop wcHeap`: swap the root with the last element, sift the new
root down within the first `n` positions, then `wordCountHeap.Pop` removes
and returns the last element. -/
def heapPop (l : List wordCount) : wordCount × List wordCount :=
  let n := l.length - 1
  let l1 := listSwap l 0 n
  let l2 := down l1 0 n
  (l2.getD n dfltWC, l2.take n)

/-- Emit phase of Go `sorter` (mapreduce.go lines 71-77): pop until the
heap is empty. -/
def drain (l : List wordCount) : List wordCount :=
  if h : 0 < l.length then
    (heapPop l).1 :: drain (heapPop l).2
  else []
termination_by l.length
decreasing_by
  have : (heapPop l).2.length ≤ l.length - 1 := by
    simp only [heapPop, List.length_take]
    omega
  omega

/-- Go `sorter` (mapreduce.go lines 55-83): drain the whole input into the
heap, then emit by repeated pops. -/
def sorter (input : List wordCount) : List wordCount :=
  drain (input.foldl heapPush [])

/-- Loop body of Go `reducer` (mapreduce.go lines 91-105): `wc` is the
running accumulator (zero value at start).  On a word change the held
accumulator is emitted unless its word is the empty sentinel, then `wc = in`
is executed; in every iteration `wc.count += in.count` follows.  Nothing is
emitted after the loop. -/
def reducerLoop (wc : wordCount) : List wordCount → List wordCount
  | [] => []
  | inp :: rest =>
    if wc.word ≠ inp.word then
      (if wc.word ≠ "" then [wc] else []) ++
        reducerLoop { word := inp.word, count := inp.count + inp.count } rest
    else
      reducerLoop { word := wc.word, count := wc.count + inp.count } rest

/-- Go `reducer` (mapreduce.go lines 86-110), starting from the zero-value
accumulator. -/
def reducer (input : List wordCount) : List wordCount :=
  reducerLoop dfltWC input

/-- Whole uncancelled pipeline of mapreduce.go: mapper, sorter, reducer in
sequence over the FIFO channels. -/
def pipeline (lines : List String) : List wordCount :=
  reducer (sorter (mapper lines))

/-- Normalization of one token, as both the code and the spec describe it:
strip non-letters, then lowercase. -/
def normalizeToken (w : String) : String :=
  goToLower (stripNonAlpha w)

/-- Mapper contract as the spec words it (section 4.2): normalize every
field, drop the ones that normalize to the empty string, and map each
survivor to a `(word, 1)` record in left-to-right order. -/
def mapFnSpec (line : String) : List wordCount :=
  (((goFields line).map normalizeToken).filter (fun w => decide (w ≠ ""))).map
    (fun w => { word := w, count := 1 })

/-- Reference (spec-side) token list: a single non-streaming pass that
normalizes every token of every line and keeps the non-empty ones. -/
def refTokens (lines : List String) : List String :=
  ((lines.map (fun line => ((goFields line).map normalizeToken).filter
    (fun w => decide (w ≠ "")))).flatten)

/-- Reference (spec-side) word count: occurrences of `w` among the
normalized tokens. -/
def refCount (lines : List String) (w : String) : Nat :=
  ((refTokens lines).filter (fun v => v == w)).length

/-- One `container/heap` operation on a `wordCountHeap`, as the sorter
drives it. -/
inductive heapOp where
  | push (x : wordCount)
  | pop
deriving Repr

/-- Apply one heap operation; a pop on an empty heap is a no-op (the Go
library would panic there, and the sorter never pops an empty heap). -/
def applyHeapOp (l : List wordCount) : heapOp → List wordCount
  | .push x => heapPush l x
  | .pop => if 0 < l.length then (heapPop l).2 else l

/-- Heap contents after a sequence of push/pop operations starting from the
empty `wordCountHeap`. -/
def runHeapOps (ops : List heapOp) : List wordCount :=
  ops.foldl applyHeapOp []

/-- Word stored at position `i` of the heap slice (out-of-range reads give
the default, which never happens on the indices we use). -/
def keyAt (l : List wordCount) (i : Nat) : String :=
  (l.getD i dfltWC).word

/-- Binary-heap order on the first `n` positions of the slice: every
non-root position is at least its parent. -/
def IsHeapN (n : Nat) (l : List wordCount) : Prop :=
  ∀ j : Nat, 0 < j → j < n → keyAt l ((j - 1) / 2) ≤ keyAt l j

/-- Binary-heap order on the whole slice. -/
def IsHeap (l : List wordCount) : Prop :=
  IsHeapN l.length l

theorem length_listSwap (l : List wordCount) (i j : Nat) :
    (listSwap l i j).length = l.length := by
  simp [listSwap]

theorem getD_set_self {l : List wordCount} {i : Nat} (h : i < l.length)
    (a d : wordCount) : (l.set i a).getD i d = a := by
  simp [List.getD_eq_getElem?_getD, List.getElem?_set, h]

theorem getD_set_ne {l : List wordCount} {i j : Nat} (h : i ≠ j)
    (a d : wordCount) : (l.set i a).getD j d = l.getD j d := by
  simp [List.getD_eq_getElem?_getD, List.getElem?_set, h]

theorem getD_default_irrel {l : List wordCount} {i : Nat} (h : i < l.length)
    (d d' : wordCount) : l.getD i d = l.getD i d' := by
  rw [List.getD_eq_getElem l d h, List.getD_eq_getElem l d' h]

theorem getD_listSwap_fst {l : List wordCount} {i j : Nat}
    (hi : i < l.length) (hj : j < l.length) :
    (listSwap l i j).getD i dfltWC = l.getD j dfltWC := by
  by_cases hij : i = j
  · subst hij
    rw [listSwap, getD_set_self (by simpa using hi)]
  · rw [listSwap, getD_set_ne (fun e => hij e.symm), getD_set_self hi]

theorem getD_listSwap_snd {l : List wordCount} {i j : Nat}
    (hi : i < l.length) (hj : j < l.length) :
    (listSwap l i j).getD j dfltWC = l.getD i dfltWC := by
  rw [listSwap, getD_set_self (by simpa using hj)]

theorem getD_listSwap_other {l : List wordCount} {i j k : Nat}
    (hki : k ≠ i) (hkj : k ≠ j) :
    (listSwap l i j).getD k dfltWC = l.getD k dfltWC := by
  rw [listSwap, getD_set_ne (fun e => hkj e.symm), getD_set_ne (fun e => hki e.symm)]

theorem keyAt_listSwap_fst {l : List wordCount} {i j : Nat}
    (hi : i < l.length) (hj : j < l.length) :
    keyAt (listSwap l i j) i = keyAt l j :=
  congrArg wordCount.word (getD_listSwap_fst hi hj)

theorem keyAt_listSwap_snd {l : List wordCount} {i j : Nat}
    (hi : i < l.length) (hj : j < l.length) :
    keyAt (listSwap l i j) j = keyAt l i :=
  congrArg wordCount.word (getD_listSwap_snd hi hj)

theorem keyAt_listSwap_other {l : List wordCount} {i j k : Nat}
    (hki : k ≠ i) (hkj : k ≠ j) :
    keyAt (listSwap l i j) k = keyAt l k :=
  congrArg wordCount.word (getD_listSwap_other hki hkj)

theorem swap_head_perm : ∀ (xs : List wordCount) (k : Nat), k < xs.length →
    ∀ x : wordCount, List.Perm ((xs.getD k dfltWC) :: xs.set k x) (x :: xs)
  | [], k, hk, _ => absurd hk (by simp)
  | y :: ys, 0, _, x => by
    simpa using List.Perm.swap x y ys
  | y :: ys, k + 1, hk, x => by
    have hk' : k < ys.length := by simpa using hk
    simp only [List.getD_cons_succ, List.set_cons_succ]
    exact ((List.Perm.swap y (ys.getD k dfltWC) (ys.set k x)).trans
      (List.Perm.cons y (swap_head_perm ys k hk' x))).trans
      (List.Perm.swap x y ys)

theorem listSwap_perm : ∀ (l : List wordCount) (i j : Nat),
    i < l.length → j < l.length → List.Perm (listSwap l i j) l
  | [], i, j, hi, _ => absurd hi (by simp)
  | x :: xs, 0, 0, _, _ => by
    simp [listSwap]
  | x :: xs, 0, m + 1, _, hj => by
    have hm : m < xs.length := by simpa using hj
    simp only [listSwap, List.getD_cons_succ, List.getD_cons_zero, List.set_cons_zero,
      List.set_cons_succ]
    exact swap_head_perm xs m hm x
  | x :: xs, n + 1, 0, hi, _ => by
    have hn : n < xs.length := by simpa using hi
    simp only [listSwap, List.getD_cons_succ, List.getD_cons_zero, List.set_cons_zero,
      List.set_cons_succ]
    exact swap_head_perm xs n hn x
  | x :: xs, n + 1, m + 1, hi, hj => by
    have hn : n < xs.length := by simpa using hi
    have hm : m < xs.length := by simpa using hj
    simp only [listSwap, List.getD_cons_succ, List.set_cons_succ]
    exact List.Perm.cons x (listSwap_perm xs n m hn hm)

theorem length_up (l : List wordCount) (j : Nat) : (up l j).length = l.length := by
  induction l, j using up.induct with
  | case1 l =>
    rw [up.eq_def]
    simp
  | case2 l j hj hlt ih =>
    rw [up.eq_def]
    simp only [dif_neg hj, if_pos hlt]
    rw [ih, length_listSwap]
  | case3 l j hj hlt =>
    rw [up.eq_def]
    simp only [dif_neg hj, if_neg hlt]

theorem up_perm (l : List wordCount) (j : Nat) :
    j < l.length → List.Perm (up l j) l := by
  induction l, j using up.induct with
  | case1 l =>
    intro _
    rw [up.eq_def]
    simp
  | case2 l j hj hlt ih =>
    intro hjl
    have hi : (j - 1) / 2 < l.length := by omega
    rw [up.eq_def]
    simp only [dif_neg hj, if_pos hlt]
    refine (ih ?_).trans (listSwap_perm l _ j hi hjl)
    rw [length_listSwap]
    omega
  | case3 l j hj hlt =>
    intro _
    rw [up.eq_def]
    simp only [dif_neg hj, if_neg hlt]
    exact List.Perm.refl l

theorem length_down (l : List wordCount) (i n : Nat) :
    (down l i n).length = l.length := by
  induction l, i, n using down.induct with
  | case1 l i n h1 h2 h3 ih =>
    rw [down.eq_def]
    simp only [if_pos h1, if_pos h2, if_pos h3]
    rw [ih, length_listSwap]
  | case2 l i n h1 h2 h3 =>
    rw [down.eq_def]
    simp only [if_pos h1, if_pos h2, if_neg h3]
  | case3 l i n h1 h2 h3 ih =>
    rw [down.eq_def]
    simp only [if_pos h1, if_neg h2, if_pos h3]
    rw [ih, length_listSwap]
  | case4 l i n h1 h2 h3 =>
    rw [down.eq_def]
    simp only [if_pos h1, if_neg h2, if_neg h3]
  | case5 l i n h1 =>
    rw [down.eq_def]
    simp only [if_neg h1]

theorem down_perm (l : List wordCount) (i n : Nat) :
    n ≤ l.length → List.Perm (down l i n) l := by
  induction l, i, n using down.induct with
  | case1 l i n h1 h2 h3 ih =>
    intro hn
    rw [down.eq_def]
    simp only [if_pos h1, if_pos h2, if_pos h3]
    refine (ih ?_).trans (listSwap_perm l i (2 * i + 2) (by omega) (by omega))
    rw [length_listSwap]
    exact hn
  | case2 l i n h1 h2 h3 =>
    intro _
    rw [down.eq_def]
    simp only [if_pos h1, if_pos h2, if_neg h3]
    exact List.Perm.refl l
  | case3 l i n h1 h2 h3 ih =>
    intro hn
    rw [down.eq_def]
    simp only [if_pos h1, if_neg h2, if_pos h3]
    refine (ih ?_).trans (listSwap_perm l i (2 * i + 1) (by omega) (by omega))
    rw [length_listSwap]
    exact hn
  | case4 l i n h1 h2 h3 =>
    intro _
    rw [down.eq_def]
    simp only [if_pos h1, if_neg h2, if_neg h3]
    exact List.Perm.refl l
  | case5 l i n h1 =>
    intro _
    rw [down.eq_def]
    simp only [if_neg h1]
    exact List.Perm.refl l

theorem down_getD_high (l : List wordCount) (i n : Nat) :
    ∀ k, n ≤ k → (down l i n).getD k dfltWC = l.getD k dfltWC := by
  induction l, i, n using down.induct with
  | case1 l i n h1 h2 h3 ih =>
    intro k hk
    rw [down.eq_def]
    simp only [if_pos h1, if_pos h2, if_pos h3]
    rw [ih k hk]
    exact getD_listSwap_other (by omega) (by omega)
  | case2 l i n h1 h2 h3 =>
    intro k hk
    rw [down.eq_def]
    simp only [if_pos h1, if_pos h2, if_neg h3]
  | case3 l i n h1 h2 h3 ih =>
    intro k hk
    rw [down.eq_def]
    simp only [if_pos h1, if_neg h2, if_pos h3]
    rw [ih k hk]
    exact getD_listSwap_other (by omega) (by omega)
  | case4 l i n h1 h2 h3 =>
    intro k hk
    rw [down.eq_def]
    simp only [if_pos h1, if_neg h2, if_neg h3]
  | case5 l i n h1 =>
    intro k hk
    rw [down.eq_def]
    simp only [if_neg h1]

theorem heapPop_fst (l : List wordCount) (h : 0 < l.length) :
    (heapPop l).1 = l.getD 0 dfltWC := by
  simp only [heapPop]
  rw [down_getD_high _ 0 (l.length - 1) (l.length - 1) le_rfl]
  exact getD_listSwap_snd h (by omega)

theorem heapPop_snd_length (l : List wordCount) (h : 0 < l.length) :
    (heapPop l).2.length = l.length - 1 := by
  simp only [heapPop, List.length_take, length_down, length_listSwap]
  omega

/-- Invariant of the sift-up loop: the heap order holds on every edge
except possibly the one from j's parent to j, and j's parent is at most
every child of j. -/
def UpInv (l : List wordCount) (j : Nat) : Prop :=
  (∀ k, 0 < k → k < l.length → k ≠ j → keyAt l ((k - 1) / 2) ≤ keyAt l k) ∧
  (∀ k, k < l.length → 0 < j → (k - 1) / 2 = j → keyAt l ((j - 1) / 2) ≤ keyAt l k)

theorem up_inv_step {l : List wordCount} {i j : Nat} (hj0 : 0 < j) (hjl : j < l.length)
    (hi : i = (j - 1) / 2) (inv : UpInv l j) (hlt : keyAt l j < keyAt l i) :
    UpInv (listSwap l i j) i := by
  obtain ⟨inv1, inv2⟩ := inv
  have hij : i < j := by omega
  have hil : i < l.length := by omega
  constructor
  · intro k hk0 hklen hki
    rw [length_listSwap] at hklen
    by_cases hkj : k = j
    · subst hkj
      rw [← hi, keyAt_listSwap_fst hil hjl, keyAt_listSwap_snd hil hjl]
      exact le_of_lt hlt
    · by_cases hpk_i : (k - 1) / 2 = i
      · rw [hpk_i, keyAt_listSwap_fst hil hjl, keyAt_listSwap_other hki hkj]
        have h2 := inv1 k hk0 hklen hkj
        rw [hpk_i] at h2
        exact le_trans (le_of_lt hlt) h2
      · by_cases hpk_j : (k - 1) / 2 = j
        · rw [hpk_j, keyAt_listSwap_snd hil hjl, keyAt_listSwap_other hki hkj]
          have h2 := inv2 k hklen hj0 hpk_j
          rw [← hi] at h2
          exact h2
        · rw [keyAt_listSwap_other hpk_i hpk_j, keyAt_listSwap_other hki hkj]
          exact inv1 k hk0 hklen hkj
  · intro k hklen hi0 hpk
    rw [length_listSwap] at hklen
    have hpi_ne_i : (i - 1) / 2 ≠ i := by omega
    have hpi_ne_j : (i - 1) / 2 ≠ j := by omega
    rw [keyAt_listSwap_other hpi_ne_i hpi_ne_j]
    have h1 : keyAt l ((i - 1) / 2) ≤ keyAt l i := inv1 i hi0 hil (by omega)
    by_cases hkj : k = j
    · subst hkj
      rw [keyAt_listSwap_snd hil hjl]
      exact h1
    · have hki : k ≠ i := by omega
      rw [keyAt_listSwap_other hki hkj]
      refine le_trans h1 ?_
      have h2 := inv1 k (by omega) hklen hkj
      rw [hpk] at h2
      exact h2

theorem up_isHeap (l : List wordCount) (j : Nat) :
    j < l.length → UpInv l j → IsHeap (up l j) := by
  induction l, j using up.induct with
  | case1 l =>
    intro _ inv
    rw [up.eq_def]
    simp only [dif_pos rfl]
    intro k hk0 hklen
    exact inv.1 k hk0 hklen (by omega)
  | case2 l j hj hlt ih =>
    intro hjl inv
    rw [up.eq_def]
    simp only [dif_neg hj, if_pos hlt]
    exact ih (by rw [length_listSwap]; omega) (up_inv_step (by omega) hjl rfl inv hlt)
  | case3 l j hj hlt =>
    intro hjl inv
    rw [up.eq_def]
    simp only [dif_neg hj, if_neg hlt]
    intro k hk0 hklen
    by_cases hkj : k = j
    · subst hkj
      exact le_of_not_lt hlt
    · exact inv.1 k hk0 hklen hkj

theorem getD_append_low {l : List wordCount} {k : Nat} (h : k < l.length) (x : wordCount) :
    (l ++ [x]).getD k dfltWC = l.getD k dfltWC := by
  rw [List.getD_eq_getElem?_getD, List.getD_eq_getElem?_getD, List.getElem?_append, if_pos h]

theorem push_upInv (l : List wordCount) (x : wordCount) (hl : IsHeap l) :
    UpInv (l ++ [x]) l.length := by
  constructor
  · intro k hk0 hklen hkl
    rw [List.length_append, List.length_singleton] at hklen
    have hklen' : k < l.length := by omega
    have hpk : (k - 1) / 2 < l.length := by omega
    unfold keyAt
    rw [getD_append_low hklen', getD_append_low hpk]
    exact hl k hk0 hklen'
  · intro k hklen hj0 hpk
    rw [List.length_append, List.length_singleton] at hklen
    omega

theorem heapPush_isHeap (l : List wordCount) (x : wordCount) (hl : IsHeap l) :
    IsHeap (heapPush l x) :=
  up_isHeap (l ++ [x]) l.length (by simp) (push_upInv l x hl)

theorem heapPush_perm (l : List wordCount) (x : wordCount) :
    List.Perm (heapPush l x) (l ++ [x]) :=
  up_perm (l ++ [x]) l.length (by simp)

/-- Invariant of the sift-down loop within bound n: the heap order holds on
every edge except possibly the edges from i to its children, and i's own
parent (when i is not the root) is at most every child of i. -/
def DownInv (n : Nat) (l : List wordCount) (i : Nat) : Prop :=
  (∀ k, 0 < k → k < n → (k - 1) / 2 ≠ i → keyAt l ((k - 1) / 2) ≤ keyAt l k) ∧
  (0 < i → ∀ k, k < n → (k - 1) / 2 = i → keyAt l ((i - 1) / 2) ≤ keyAt l k)

theorem down_inv_step {l : List wordCount} {i j n : Nat} (hn : n ≤ l.length)
    (hj : j = 2 * i + 1 ∨ j = 2 * i + 2) (hjn : j < n)
    (hmin : ∀ k, (k = 2 * i + 1 ∨ k = 2 * i + 2) → k < n → keyAt l j ≤ keyAt l k)
    (hlt : keyAt l j < keyAt l i) (inv : DownInv n l i) :
    DownInv n (listSwap l i j) j := by
  obtain ⟨inv1, inv2⟩ := inv
  have hij : i < j := by omega
  have hil : i < l.length := by omega
  have hjl : j < l.length := by omega
  have hpj : (j - 1) / 2 = i := by omega
  constructor
  · intro k hk0 hkn hpk
    by_cases hkj : k = j
    · rw [hkj, hpj, keyAt_listSwap_fst hil hjl, keyAt_listSwap_snd hil hjl]
      exact le_of_lt hlt
    · by_cases hki : k = i
      · rw [hki]
        rw [keyAt_listSwap_other (show (i - 1) / 2 ≠ i by omega)
          (show (i - 1) / 2 ≠ j by omega), keyAt_listSwap_fst hil hjl]
        exact inv2 (by omega) j hjn hpj
      · by_cases hpk_i : (k - 1) / 2 = i
        · rw [hpk_i, keyAt_listSwap_fst hil hjl, keyAt_listSwap_other hki hkj]
          exact hmin k (by omega) hkn
        · rw [keyAt_listSwap_other hpk_i hpk, keyAt_listSwap_other hki hkj]
          exact inv1 k hk0 hkn hpk_i
  · intro hj0 k hkn hpk
    rw [hpj, keyAt_listSwap_fst hil hjl]
    have hki : k ≠ i := by omega
    have hkj : k ≠ j := by omega
    rw [keyAt_listSwap_other hki hkj]
    have h2 := inv1 k (by omega) hkn (by omega)
    rw [hpk] at h2
    exact h2

theorem down_isHeapN (l : List wordCount) (i n : Nat) :
    n ≤ l.length → DownInv n l i → IsHeapN n (down l i n) := by
  induction l, i, n using down.induct with
  | case1 l i n h1 h2 h3 ih =>
    intro hn inv
    rw [down.eq_def]
    simp only [if_pos h1, if_pos h2, if_pos h3]
    refine ih ?_ ?_
    · rw [length_listSwap]
      exact hn
    · refine down_inv_step hn (Or.inr rfl) h2.1 ?_ h3 inv
      intro k hk hkn
      rcases hk with hk | hk
      · rw [hk]
        exact le_of_lt h2.2
      · rw [hk]
  | case2 l i n h1 h2 h3 =>
    intro hn inv
    rw [down.eq_def]
    simp only [if_pos h1, if_pos h2, if_neg h3]
    intro k hk0 hkn
    by_cases hpk : (k - 1) / 2 = i
    · rw [hpk]
      have hk12 : k = 2 * i + 1 ∨ k = 2 * i + 2 := by omega
      rcases hk12 with hk' | hk'
      · rw [hk']
        exact le_trans (le_of_not_lt h3) (le_of_lt h2.2)
      · rw [hk']
        exact le_of_not_lt h3
    · exact inv.1 k hk0 hkn hpk
  | case3 l i n h1 h2 h3 ih =>
    intro hn inv
    rw [down.eq_def]
    simp only [if_pos h1, if_neg h2, if_pos h3]
    refine ih ?_ ?_
    · rw [length_listSwap]
      exact hn
    · refine down_inv_step hn (Or.inl rfl) h1 ?_ h3 inv
      intro k hk hkn
      rcases hk with hk | hk
      · rw [hk]
      · rw [hk]
        rcases not_and_or.mp h2 with hc | hc
        · exact absurd (hk ▸ hkn) hc
        · exact le_of_not_lt hc
  | case4 l i n h1 h2 h3 =>
    intro hn inv
    rw [down.eq_def]
    simp only [if_pos h1, if_neg h2, if_neg h3]
    intro k hk0 hkn
    by_cases hpk : (k - 1) / 2 = i
    · rw [hpk]
      have hk12 : k = 2 * i + 1 ∨ k = 2 * i + 2 := by omega
      rcases hk12 with hk' | hk'
      · rw [hk']
        exact le_of_not_lt h3
      · rw [hk']
        rcases not_and_or.mp h2 with hc | hc
        · exact absurd (hk' ▸ hkn) hc
        · exact le_trans (le_of_not_lt h3) (le_of_not_lt hc)
    · exact inv.1 k hk0 hkn hpk
  | case5 l i n h1 =>
    intro hn inv
    rw [down.eq_def]
    simp only [if_neg h1]
    intro k hk0 hkn
    by_cases hpk : (k - 1) / 2 = i
    · omega
    · exact inv.1 k hk0 hkn hpk

theorem isHeapN_root_min {n : Nat} {l : List wordCount} (h : IsHeapN n l) :
    ∀ j, j < n → keyAt l 0 ≤ keyAt l j := by
  intro j
  induction j using Nat.strong_induction_on with
  | _ j ih =>
    intro hjn
    rcases Nat.eq_zero_or_pos j with hj0 | hj0
    · rw [hj0]
    · exact le_trans (ih ((j - 1) / 2) (by omega) (by omega)) (h j hj0 hjn)

theorem pop_downInv (l : List wordCount) (hl : IsHeap l) :
    DownInv (l.length - 1) (listSwap l 0 (l.length - 1)) 0 := by
  constructor
  · intro k hk0 hkn hpk
    rw [keyAt_listSwap_other hpk (by omega), keyAt_listSwap_other (by omega) (by omega)]
    exact hl k hk0 (by omega)
  · intro h0
    exact absurd h0 (lt_irrefl 0)

theorem getD_take_low {l : List wordCount} {n k : Nat} (h : k < n) :
    (l.take n).getD k dfltWC = l.getD k dfltWC := by
  rw [List.getD_eq_getElem?_getD, List.getD_eq_getElem?_getD, List.getElem?_take, if_pos h]

theorem heapPop_snd_isHeap (l : List wordCount) (hl : IsHeap l) (h : 0 < l.length) :
    IsHeap (heapPop l).2 := by
  have hheap := down_isHeapN (listSwap l 0 (l.length - 1)) 0 (l.length - 1)
    (by rw [length_listSwap]; omega) (pop_downInv l hl)
  intro k hk0 hklen
  rw [heapPop_snd_length l h] at hklen
  show keyAt (heapPop l).2 ((k - 1) / 2) ≤ keyAt (heapPop l).2 k
  have e2 : (heapPop l).2 =
      (down (listSwap l 0 (l.length - 1)) 0 (l.length - 1)).take (l.length - 1) := rfl
  rw [e2]
  unfold keyAt
  rw [getD_take_low hklen, getD_take_low (by omega : (k - 1) / 2 < l.length - 1)]
  exact hheap k hk0 hklen

theorem heapPop_perm (l : List wordCount) (h : 0 < l.length) :
    List.Perm ((heapPop l).1 :: (heapPop l).2) l := by
  have hlen2 : (down (listSwap l 0 (l.length - 1)) 0 (l.length - 1)).length = l.length := by
    rw [length_down, length_listSwap]
  have hperm : List.Perm (down (listSwap l 0 (l.length - 1)) 0 (l.length - 1)) l :=
    (down_perm _ 0 (l.length - 1) (by rw [length_listSwap]; omega)).trans
      (listSwap_perm l 0 (l.length - 1) h (by omega))
  have h1 : (heapPop l).1 =
      (down (listSwap l 0 (l.length - 1)) 0 (l.length - 1)).getD (l.length - 1) dfltWC := rfl
  have h2 : (heapPop l).2 =
      (down (listSwap l 0 (l.length - 1)) 0 (l.length - 1)).take (l.length - 1) := rfl
  have hdlen : ((down (listSwap l 0 (l.length - 1)) 0 (l.length - 1)).drop (l.length - 1)).length
      = 1 := by
    rw [List.length_drop, hlen2]
    omega
  obtain ⟨a, ha⟩ := List.length_eq_one.mp hdlen
  have ha2 : (down (listSwap l 0 (l.length - 1)) 0 (l.length - 1)).getD (l.length - 1) dfltWC
      = a := by
    have hd := List.getElem?_drop (down (listSwap l 0 (l.length - 1)) 0 (l.length - 1))
      (l.length - 1) 0
    rw [ha] at hd
    simp only [List.getElem?_cons_zero, Nat.add_zero] at hd
    rw [List.getD_eq_getElem?_getD, ← hd]
    rfl
  have hsplit : (down (listSwap l 0 (l.length - 1)) 0 (l.length - 1)).take (l.length - 1) ++ [a]
      = down (listSwap l 0 (l.length - 1)) 0 (l.length - 1) := by
    rw [← ha, List.take_append_drop]
  rw [← hsplit] at hperm
  rw [h1, h2, ha2]
  exact (List.perm_append_singleton a _).symm.trans hperm

theorem heapPop_fst_min (l : List wordCount) (hl : IsHeap l) (h : 0 < l.length) :
    ∀ y ∈ (heapPop l).2, (heapPop l).1.word ≤ y.word := by
  intro y hy
  have hmem : y ∈ l := (heapPop_perm l h).mem_iff.mp (List.mem_cons_of_mem _ hy)
  obtain ⟨k, hk, hget⟩ := List.mem_iff_getElem.mp hmem
  have hroot := isHeapN_root_min hl k hk
  rw [heapPop_fst l h]
  have hkey : keyAt l k = y.word := by
    unfold keyAt
    rw [List.getD_eq_getElem l _ hk, hget]
  rw [show (l.getD 0 dfltWC).word = keyAt l 0 from rfl, ← hkey]
  exact hroot

theorem drain_spec : ∀ (N : Nat) (l : List wordCount), l.length ≤ N → IsHeap l →
    List.Perm (drain l) l ∧ List.Pairwise (fun a b : wordCount => a.word ≤ b.word) (drain l) := by
  intro N
  induction N with
  | zero =>
    intro l hlen _
    have hnil : l = [] := List.eq_nil_of_length_eq_zero (by omega)
    rw [hnil, drain.eq_def]
    simp
  | succ N ih =>
    intro l hlen hl
    rcases Nat.eq_zero_or_pos l.length with h0 | h0
    · have hnil : l = [] := List.eq_nil_of_length_eq_zero h0
      rw [hnil, drain.eq_def]
      simp
    · rw [drain.eq_def]
      simp only [dif_pos h0]
      have hrec := ih (heapPop l).2 (by rw [heapPop_snd_length l h0]; omega)
        (heapPop_snd_isHeap l hl h0)
      constructor
      · exact (List.Perm.cons _ hrec.1).trans (heapPop_perm l h0)
      · refine List.Pairwise.cons ?_ hrec.2
        intro y hy
        exact heapPop_fst_min l hl h0 y (hrec.1.mem_iff.mp hy)

theorem isHeap_nil : IsHeap ([] : List wordCount) := by
  intro j hj0 hj
  simp at hj

theorem foldl_heapPush_spec : ∀ (input acc : List wordCount), IsHeap acc →
    IsHeap (input.foldl heapPush acc) ∧
      List.Perm (input.foldl heapPush acc) (acc ++ input) := by
  intro input
  induction input with
  | nil =>
    intro acc h
    simp only [List.foldl_nil, List.append_nil]
    exact ⟨h, List.Perm.refl _⟩
  | cons x xs ih =>
    intro acc h
    simp only [List.foldl_cons]
    obtain ⟨h1, h2⟩ := ih (heapPush acc x) (heapPush_isHeap acc x h)
    refine ⟨h1, h2.trans ?_⟩
    have hstep : List.Perm (heapPush acc x ++ xs) ((acc ++ [x]) ++ xs) :=
      (heapPush_perm acc x).append_right xs
    refine hstep.trans ?_
    rw [List.append_assoc]
    exact List.Perm.refl _

theorem sorter_spec (input : List wordCount) :
    List.Perm (sorter input) input ∧
      List.Pairwise (fun a b : wordCount => a.word ≤ b.word) (sorter input) := by
  obtain ⟨hheap, hperm⟩ := foldl_heapPush_spec input [] isHeap_nil
  obtain ⟨hp, hs⟩ := drain_spec (input.foldl heapPush []).length _ le_rfl hheap
  refine ⟨hp.trans ?_, hs⟩
  simpa using hperm

theorem empty_le_word (s : String) : ("" : String) ≤ s := by
  rw [String.le_iff_toList_le]
  exact List.nil_le

theorem reducerLoop_strict : ∀ (input : List wordCount) (wc : wordCount),
    List.Pairwise (fun a b : wordCount => a.word ≤ b.word) input →
    (∀ r ∈ input, wc.word ≤ r.word) →
    List.Pairwise (fun a b : wordCount => a.word < b.word) (reducerLoop wc input) ∧
      (∀ r ∈ reducerLoop wc input, wc.word ≤ r.word) := by
  intro input
  induction input with
  | nil =>
    intro wc _ _
    exact ⟨List.Pairwise.nil, by simp [reducerLoop]⟩
  | cons inp rest ih =>
    intro wc hsorted hge
    have hrest : List.Pairwise (fun a b : wordCount => a.word ≤ b.word) rest :=
      hsorted.of_cons
    have hhead : ∀ r ∈ rest, inp.word ≤ r.word :=
      fun r hr => (List.pairwise_cons.mp hsorted).1 r hr
    by_cases hne : wc.word ≠ inp.word
    · have hwc_le : wc.word ≤ inp.word := hge inp (List.mem_cons_self inp rest)
      have hwc_lt : wc.word < inp.word := lt_of_le_of_ne hwc_le hne
      obtain ⟨ihs, ihge⟩ :=
        ih { word := inp.word, count := inp.count + inp.count } hrest hhead
      simp only [reducerLoop, if_pos hne]
      by_cases hwe : wc.word ≠ ""
      · rw [if_pos hwe, List.singleton_append]
        constructor
        · refine List.Pairwise.cons ?_ ihs
          intro r hr
          exact lt_of_lt_of_le hwc_lt (ihge r hr)
        · intro r hr
          rcases List.mem_cons.mp hr with h | h
          · rw [h]
          · exact le_trans hwc_le (ihge r h)
      · rw [if_neg hwe, List.nil_append]
        exact ⟨ihs, fun r hr => le_trans hwc_le (ihge r hr)⟩
    · have heq : wc.word = inp.word := not_ne_iff.mp hne
      simp only [reducerLoop, if_neg hne]
      refine ih { word := wc.word, count := wc.count + inp.count } hrest ?_
      intro r hr
      show wc.word ≤ r.word
      rw [heq]
      exact hhead r hr

theorem reducerLoop_ne_empty : ∀ (input : List wordCount) (wc r : wordCount),
    r ∈ reducerLoop wc input → r.word ≠ "" := by
  intro input
  induction input with
  | nil =>
    intro wc r hr
    simp [reducerLoop] at hr
  | cons inp rest ih =>
    intro wc r hr
    by_cases hne : wc.word ≠ inp.word
    · simp only [reducerLoop, if_pos hne] at hr
      rcases List.mem_append.mp hr with h | h
      · by_cases hwe : wc.word ≠ ""
        · rw [if_pos hwe] at h
          rw [List.mem_singleton.mp h]
          exact hwe
        · rw [if_neg hwe] at h
          simp at h
      · exact ih _ r h
    · simp only [reducerLoop, if_neg hne] at hr
      exact ih _ r hr

theorem runHeapOps_foldl_isHeap : ∀ (ops : List heapOp) (acc : List wordCount),
    IsHeap acc → IsHeap (ops.foldl applyHeapOp acc) := by
  intro ops
  induction ops with
  | nil =>
    intro acc h
    exact h
  | cons op ops ih =>
    intro acc h
    cases op with
    | push x =>
      exact ih _ (heapPush_isHeap acc x h)
    | pop =>
      rcases Nat.eq_zero_or_pos acc.length with h0 | h0
      · simp only [List.foldl_cons, applyHeapOp]
        rw [if_neg (by omega)]
        exact ih _ h
      · simp only [List.foldl_cons, applyHeapOp]
        rw [if_pos h0]
        exact ih _ (heapPop_snd_isHeap acc h h0)

theorem runHeapOps_isHeap (ops : List heapOp) : IsHeap (runHeapOps ops) :=
  runHeapOps_foldl_isHeap ops [] isHeap_nil

theorem mapFn_foldl (ws : List String) : ∀ acc : List wordCount,
    ws.foldl
      (fun result w =>
        let w2 := goToLower (stripNonAlpha w)
        if w2 ≠ "" then result ++ [{ word := w2, count := 1 }] else result) acc =
    acc ++ ((ws.map normalizeToken).filter (fun w => decide (w ≠ ""))).map
      (fun w => ({ word := w, count := 1 } : wordCount)) := by
  induction ws with
  | nil =>
    intro acc
    simp
  | cons w ws ih =>
    intro acc
    simp only [List.foldl_cons]
    rw [ih]
    by_cases hw : normalizeToken w ≠ ""
    · simp [normalizeToken, List.filter_cons, List.append_assoc] at hw ⊢
      simp [hw]
    · simp only [ne_eq, not_not] at hw
      simp [normalizeToken, List.filter_cons] at hw ⊢
      simp [hw]

theorem mapFn_eq_spec (line : String) : mapFn line = mapFnSpec line := by
  rw [mapFn, mapFnSpec, mapFn_foldl, List.nil_append]

/-- Claim C1 fails on the code.  The reducer never flushes its final
accumulator (and double-counts the first record of every group), so the
output does not reproduce the reference word count: on the single line
"a" the pipeline emits nothing while the reference count of the word "a"
is 1, so the sum of output counts (0) differs from the token total (1). -/
theorem pipeline_loses_last_group :
    pipeline ["a"] = [] ∧ refCount ["a"] "a" = 1 := by
  constructor
  · simp +decide [pipeline, mapper, mapFn, goFields, sorter, drain, heapPop, heapPush, up, down,
      listSwap, reducer, reducerLoop]
  · decide

/-- Claim C2 fails on the code.  The mapper does produce the token sequence
the spec expects, but the pipeline output on the example is
(cat,3), (dog,2), (on,2), (sat,3): the first record of each group is
counted twice and the final group "the" is dropped, instead of the
specified (cat,2), (dog,1), (on,1), (sat,2), (the,3). -/
theorem pipeline_example_output :
    (mapper ["The cat sat.", "The dog sat on the cat."]).map wordCount.word =
      ["the", "cat", "sat", "the", "dog", "sat", "on", "the", "cat"] ∧
    pipeline ["The cat sat.", "The dog sat on the cat."] =
      [⟨"cat", 3⟩, ⟨"dog", 2⟩, ⟨"on", 2⟩, ⟨"sat", 3⟩] := by
  constructor
  · decide
  · simp +decide [pipeline, mapper, mapFn, goFields, sorter, drain, heapPop, heapPush, up, down,
      listSwap, reducer, reducerLoop]

/-- Claim C3 fails on the code.  On a word change the reducer executes
`wc = in` and then falls through to `wc.count += in.count`, so the fresh
accumulator holds twice the incoming count rather than exactly `in`'s
count: feeding ("a",1) then ("b",1) emits ("a",2) where the claim's
transition would emit ("a",1). -/
theorem reducer_doubles_first_of_group :
    reducer [⟨"a", 1⟩, ⟨"b", 1⟩] = [⟨"a", 2⟩] := by
  decide

/-- Claim C4 fails on the code.  When the input channel closes the reducer
returns without emitting the held accumulator, so the last word group of a
non-empty input is lost: on the single record ("a",1) the reducer holds an
accumulator for "a" at end of input yet emits nothing. -/
theorem reducer_drops_final_accumulator :
    reducer [⟨"a", 1⟩] = [] := by
  decide

/-- Claim C5: for every input, the words of the pipeline's output records
are strictly increasing in lexicographic order, and no word appears in
more than one output record. -/
theorem pipeline_words_strictly_ascending (lines : List String) :
    List.Pairwise (fun a b : wordCount => a.word < b.word) (pipeline lines) ∧
      ((pipeline lines).map wordCount.word).Nodup := by
  have hsorted := (sorter_spec (mapper lines)).2
  have hge : ∀ r ∈ sorter (mapper lines), dfltWC.word ≤ r.word :=
    fun r _ => empty_le_word r.word
  have hstrict := (reducerLoop_strict (sorter (mapper lines)) dfltWC hsorted hge).1
  refine ⟨hstrict, ?_⟩
  show List.Pairwise (fun a b => a ≠ b) ((pipeline lines).map wordCount.word)
  rw [List.pairwise_map]
  exact hstrict.imp (fun h => ne_of_lt h)

/-- Claim C6: mapFn tokenizes on whitespace runs, strips non-ASCII-letters,
lowercases, drops tokens that normalize to the empty string, and emits one
(word, 1) record per surviving token in order; a line of non-letter
characters yields no records. -/
theorem mapFn_matches_spec :
    (∀ line, mapFn line = mapFnSpec line) ∧ mapFn "123 !!! --" = [] :=
  ⟨mapFn_eq_spec, by decide⟩

/-- Claim C7: on an uncancelled run the sorter emits a permutation of its
input, in non-decreasing lexicographic order of the word field.  The
barrier behaviour (no output before the whole input is consumed) is
structural in this model: `sorter` first folds the entire input into the
heap and only then drains it. -/
theorem sorter_is_sorted_permutation (input : List wordCount) :
    List.Perm (sorter input) input ∧
      List.Pairwise (fun a b : wordCount => a.word ≤ b.word) (sorter input) :=
  sorter_spec input

/-- Claim C8: after any sequence of pushes and pops driven through
container/heap, whenever the heap is non-empty the root's word is
lexicographically at most the word of every held record. -/
theorem heap_root_is_min (ops : List heapOp) (h0 : 0 < (runHeapOps ops).length) :
    ∀ i, i < (runHeapOps ops).length →
      ((runHeapOps ops).getD 0 dfltWC).word ≤ ((runHeapOps ops).getD i dfltWC).word := by
  intro i hi
  exact isHeapN_root_min (runHeapOps_isHeap ops) i hi

/-- Witness for claim C8 at a concrete operation sequence: after pushing
("b",1) and ("a",1) the heap is non-empty and the root "a" is at most the
word at position 1. -/
theorem heap_root_is_min_witness :
    0 < (runHeapOps [heapOp.push ⟨"b", 1⟩, heapOp.push ⟨"a", 1⟩]).length ∧
      ((runHeapOps [heapOp.push ⟨"b", 1⟩, heapOp.push ⟨"a", 1⟩]).getD 0 dfltWC).word ≤
        ((runHeapOps [heapOp.push ⟨"b", 1⟩, heapOp.push ⟨"a", 1⟩]).getD 1 dfltWC).word :=
  ⟨by simp +decide [runHeapOps, applyHeapOp, heapPush, up, listSwap],
   heap_root_is_min [heapOp.push ⟨"b", 1⟩, heapOp.push ⟨"a", 1⟩]
     (by simp +decide [runHeapOps, applyHeapOp, heapPush, up, listSwap]) 1
     (by simp +decide [runHeapOps, applyHeapOp, heapPush, up, listSwap])⟩

/-- Claim C9: the empty input produces no output anywhere in the pipeline:
the mapper emits nothing, the sorter's heap stays empty, and the whole
pipeline emits nothing. -/
theorem pipeline_empty_input :
    pipeline [] = [] ∧ mapper [] = [] ∧ (mapper []).foldl heapPush [] = [] ∧
      sorter [] = [] := by
  refine ⟨?_, rfl, rfl, ?_⟩
  · simp +decide [pipeline, mapper, sorter, drain, reducer, reducerLoop]
  · simp +decide [sorter, drain]

/-- Claim C10: the reducer uses the empty word as its no-accumulator
sentinel, so on any input whose records all carry non-empty words (as the
mapper guarantees), every emitted record has a non-empty word. -/
theorem reducer_preserves_nonempty_words (input : List wordCount)
    (hin : ∀ r ∈ input, r.word ≠ "") :
    ∀ r ∈ reducer input, r.word ≠ "" := by
  intro r hr
  exact reducerLoop_ne_empty input dfltWC r hr

/-- Witness for claim C10 at a concrete input with non-empty words. -/
theorem reducer_preserves_nonempty_words_witness :
    (∀ r ∈ [(⟨"a", 1⟩ : wordCount), ⟨"b", 1⟩], r.word ≠ "") ∧
      ∀ r ∈ reducer [⟨"a", 1⟩, ⟨"b", 1⟩], r.word ≠ "" :=
  ⟨by decide, reducer_preserves_nonempty_words [⟨"a", 1⟩, ⟨"b", 1⟩] (by decide)⟩
